import Mathlib

/-!
Verification development for the bone-identity resolution core of the
BoneOrthoSystem repository.  Strings are modelled as `List Char`; the
Python string primitives used by the source (`strip`, `lower`, `replace`,
and the handful of anchored regexes) are embedded as structurally
recursive functions on `List Char` so that every definition evaluates by
`decide`/`rfl`.  Only the ASCII whitespace/letter/digit fragment matters
for the catalog names and mesh identifiers involved.
-/

namespace BoneOrtho

/-- Python whitespace (`str.strip`, regex `\s`), ASCII fragment:
space, tab, newline, carriage return, vertical tab, form feed. -/
def isPyWs (c : Char) : Bool :=
  c = ' ' || c = '\t' || c = '\n' || c = '\r' || c = Char.ofNat 11 || c = Char.ofNat 12

/-- Python `str.lower` on one character (ASCII fragment). -/
def pyLower (c : Char) : Char :=
  if 'A' ≤ c && c ≤ 'Z' then Char.ofNat (c.toNat + 32) else c

/-- Python `str.upper` on one character (ASCII fragment). -/
def pyUpper (c : Char) : Char :=
  if 'a' ≤ c && c ≤ 'z' then Char.ofNat (c.toNat - 32) else c

/-- Regex `\d` (ASCII fragment). -/
def isAsciiDigit (c : Char) : Bool := '0' ≤ c && c ≤ '9'

/-- The characters matched by `[LR]` under `re.IGNORECASE`. -/
def isSideChar (c : Char) : Bool := c = 'L' || c = 'l' || c = 'R' || c = 'r'

/-- Python `str.lstrip()`. -/
def lstripL (l : List Char) : List Char := l.dropWhile isPyWs

/-- Python `str.rstrip()`. -/
def rstripL (l : List Char) : List Char := (l.reverse.dropWhile isPyWs).reverse

/-- Python `str.strip()`. -/
def stripL (l : List Char) : List Char := lstripL (rstripL l)

/-- Auxiliary state machine for collapsing runs: the flag records whether
the previous character belonged to a run being collapsed. -/
def collapseRunAux (p : Char → Bool) (out : Char) : Bool → List Char → List Char
  | _, [] => []
  | inRun, c :: rest =>
    if p c then
      if inRun then collapseRunAux p out true rest
      else out :: collapseRunAux p out true rest
    else c :: collapseRunAux p out false rest

/-- Regex `re.sub(r"\.{2,}", ".", s)`: collapse every run of dots to one dot
(runs of length one are already single dots, so collapsing every run is
extensionally the same substitution). -/
def collapseDots (l : List Char) : List Char := collapseRunAux (fun c => c = '.') '.' false l

/-- Regex `re.sub(r"\s+", " ", s)`: collapse every whitespace run to one space. -/
def collapseWs (l : List Char) : List Char := collapseRunAux isPyWs ' ' false l

/-- Python `s.endswith(".")` on the reversed representation. -/
def endsDot (l : List Char) : Bool :=
  match l.reverse with
  | c :: _ => c = '.'
  | [] => false

/-- Whether `re.search(r"[LR]$", s, re.IGNORECASE)` succeeds. -/
def lastSide (l : List Char) : Bool :=
  match l.reverse with
  | c :: _ => isSideChar c
  | [] => false

/-- Whether `re.search(r"\.[LR]$", s, re.IGNORECASE)` succeeds. -/
def endsDotSide (l : List Char) : Bool :=
  match l.reverse with
  | c :: d :: _ => isSideChar c && d = '.'
  | _ => false

/-- Python `s[:-1] + "." + s[-1]` (insert a dot before the final character). -/
def insDot (l : List Char) : List Char :=
  match l.reverse with
  | c :: rest => (c :: '.' :: rest).reverse
  | [] => l

/-!
## `s3_viewer/mesh_map.py`

`_normalize_mesh_name`, `_variants` and the pure part of `get_mesh_map`
(the SQL `IN` query is the injected catalog-lookup capability; it is
modelled as a case-insensitive membership scan over a row list, rows in
table order).
-/

/-- Regex `re.sub(r"([LR])\1$", r"\1", s, flags=re.IGNORECASE)`.
Under `re.IGNORECASE` the backreference `\1` also matches
case-insensitively, so the last two characters need only be side letters
with the same lowering; the replacement keeps the first of the two. -/
def mmCollapseDoubledSide (l : List Char) : List Char :=
  match l.reverse with
  | c2 :: c1 :: rest =>
    if isSideChar c1 && (pyLower c1 = pyLower c2) then (c1 :: rest).reverse else l
  | _ => l

/-- Function `mesh_map._normalize_mesh_name`. -/
def mmNormalize (name : List Char) : List Char :=
  let s := stripL name
  if s = [] then []
  else mmCollapseDoubledSide (collapseDots s)

/-- Keep-first deduplication dropping empty strings
(`if x and x not in seen`). -/
def dedupNonEmpty : List (List Char) → List (List Char) → List (List Char)
  | _, [] => []
  | seen, x :: rest =>
    if x = [] || seen.contains x then dedupNonEmpty seen rest
    else x :: dedupNonEmpty (x :: seen) rest

/-- Function `mesh_map._variants`. -/
def mmVariants (name : List Char) : List (List Char) :=
  let n := mmNormalize name
  if n = [] then []
  else
    let c1 := [n, n.filter (fun c => c ≠ '.')]
    let c2 := if lastSide n && !endsDotSide n then c1 ++ [insDot n] else c1
    let c3 := c2 ++ [(c2.getLast?.getD []).filter (fun c => c ≠ '.')]
    dedupNonEmpty [] c3

/-- SQL Server case-insensitive string equality (default collation),
used for the `WHERE MeshName IN (...)` lookup. -/
def ciEq (a b : List Char) : Bool := a.map pyLower = b.map pyLower

/-- Result of `mesh_map.get_mesh_map`: either a diagnostic not-found value
(the `detail` dict) or the best match plus all matches.  The constant
`backend_db`/`backend_server` fields are omitted. -/
inductive MeshResult where
  | notFound (message input normalized : List Char) (candidates : List (List Char))
  | found (best : Nat × List Char) (rows : List (Nat × List Char))
      (input normalized : List Char) (candidates : List (List Char))
deriving DecidableEq

def emptyMeshMsg : List Char := "Empty mesh_name".data

def meshNotFoundMsg : List Char := "MeshName not found in [model].[BoneMeshMap]".data

/-- Function `mesh_map.get_mesh_map` over an injected catalog of
`(SmallBoneId, MeshName)` rows in table order.  The nested
`for target in [raw, norm] + cands: for m in matches: ...` loop with
`break` is the first case-sensitive hit scanning targets outermost,
with `matches[0]` as fallback. -/
def mmGetMeshMap (catalog : List (Nat × List Char)) (meshName : List Char) : MeshResult :=
  let raw := meshName
  let norm := mmNormalize raw
  let cands := mmVariants raw
  if cands = [] then
    MeshResult.notFound emptyMeshMsg raw norm []
  else
    let hits := catalog.filter (fun row => cands.any (fun c => ciEq row.2 c))
    match hits with
    | [] => MeshResult.notFound meshNotFoundMsg raw norm cands
    | m0 :: _ =>
      let best := ((raw :: norm :: cands).findSome?
        (fun t => hits.find? (fun m => m.2 = t))).getD m0
      MeshResult.found best hits raw norm cands

/-- Projection: the resolved small-bone id, when resolution succeeded. -/
def foundId : MeshResult → Option Nat
  | MeshResult.found best _ _ _ _ => some best.1
  | MeshResult.notFound _ _ _ _ => none

/-- Projection: whether the result is the not-found value. -/
def isNotFound : MeshResult → Bool
  | MeshResult.notFound _ _ _ _ => true
  | MeshResult.found _ _ _ _ _ => false

/-- Projection: the candidate list carried by the result. -/
def candidatesOf : MeshResult → List (List Char)
  | MeshResult.notFound _ _ _ cs => cs
  | MeshResult.found _ _ _ _ cs => cs

/-!
## `s3_viewer/router.py`

`_normalize_mesh_name`, `_mesh_candidates`, and `get_mesh_map`
(`SELECT TOP 1 ... WHERE MeshName IN (...)`, modelled as the first
catalog row in table order matching any candidate case-insensitively).
-/

/-- One pass of the `while s.endswith("."): s = s[:-1].strip()` loop,
driven by fuel.  Each iteration removes at least the final dot, so fuel
equal to the initial length is enough for the model to coincide with the
loop. -/
def stripTrailDotsFuel : Nat → List Char → List Char
  | 0, s => s
  | n + 1, s => if endsDot s then stripTrailDotsFuel n (stripL s.dropLast) else s

def stripTrailDots (s : List Char) : List Char := stripTrailDotsFuel s.length s

/-- Regex `re.sub(r"\.([LR])\1$", r".\1", s, flags=re.IGNORECASE)`:
collapse a doubled side letter after a dot (the ignorecase backreference
matches either case); keeps the dot and the first letter. -/
def rtCollapseDotDoubled (l : List Char) : List Char :=
  match l.reverse with
  | c2 :: c1 :: '.' :: rest =>
    if isSideChar c1 && (pyLower c1 = pyLower c2) then (c1 :: '.' :: rest).reverse else l
  | _ => l

/-- Regex `re.sub(r"\.([LR])\.\1$", r".\1", s, flags=re.IGNORECASE)`:
collapse `.L.L`-style repetition; keeps the first dot-letter pair. -/
def rtCollapseDotPair (l : List Char) : List Char :=
  match l.reverse with
  | c2 :: '.' :: c1 :: '.' :: rest =>
    if isSideChar c1 && (pyLower c1 = pyLower c2) then (c1 :: '.' :: rest).reverse else l
  | _ => l

/-- Function `router._normalize_mesh_name`. -/
def rtNormalize (name : List Char) : List Char :=
  let s := stripL name
  let s := stripL (s.map (fun c => if c = '_' then ' ' else c))
  let s := stripTrailDots s
  let s := rtCollapseDotDoubled s
  let s := rtCollapseDotPair s
  if decide (s.length > 1) && lastSide s && !endsDotSide s then insDot s else s

/-- Whether `re.search(r"\.L$", n, re.IGNORECASE)` succeeds. -/
def endsDotOf (letter : Char) (l : List Char) : Bool :=
  match l.reverse with
  | c :: d :: _ => pyLower c = letter && d = '.'
  | _ => false

/-- Regex `re.sub(r"\.L$", ".LL", n, flags=re.IGNORECASE)` (and the `.R` twin):
replace the final dot-letter pair by the literal uppercase doubled form. -/
def subDotDoubled (letter : Char) (l : List Char) : List Char :=
  match l.reverse with
  | _ :: '.' :: rest => (letter :: letter :: '.' :: rest).reverse
  | _ => l

/-- Keep-first deduplication that strips each entry and drops empties
(the router's dedup loop). -/
def rtDedup : List (List Char) → List (List Char) → List (List Char)
  | _, [] => []
  | seen, x :: rest =>
    let xx := stripL x
    if xx = [] || seen.contains xx then rtDedup seen rest
    else xx :: rtDedup (xx :: seen) rest

/-- Function `router._mesh_candidates`. -/
def rtCandidates (meshName : List Char) : List (List Char) :=
  let raw := stripL meshName
  let n := rtNormalize raw
  let cands := [raw, n, n.filter (fun c => c ≠ '.')]
  let cands := if endsDotOf 'l' n then cands ++ [subDotDoubled 'L' n] else cands
  let cands := if endsDotOf 'r' n then cands ++ [subDotDoubled 'R' n] else cands
  let cands := cands ++ [n ++ ['.']]
  rtDedup [] cands

/-- Result of `router.get_mesh_map`: the first matching row, or the
HTTP-404 payload (`HTTPException(status_code=404, detail=...)`) carrying
the diagnostic fields. -/
inductive RtResult where
  | ok (row : Nat × List Char)
  | httpNotFound (message input normalized : List Char) (candidates : List (List Char))
deriving DecidableEq

def rtNotFoundMsg : List Char := "MeshName not found in [model].[BoneMeshMap]".data

/-- Function `router.get_mesh_map` over the injected catalog (rows in table order;
`SELECT TOP 1` without `ORDER BY` is modelled as the first row). -/
def rtGetMeshMap (catalog : List (Nat × List Char)) (meshName : List Char) : RtResult :=
  let cands := rtCandidates meshName
  match catalog.find? (fun row => cands.any (fun c => ciEq row.2 c)) with
  | some r => RtResult.ok r
  | none => RtResult.httpNotFound rtNotFoundMsg meshName (rtNormalize meshName) cands

/-- Regex `re.sub(r"\.(L|R)$", "", s, flags=re.IGNORECASE)`: delete a
trailing dot-plus-side-letter pair. -/
def stripDotSideTok (l : List Char) : List Char :=
  match l.reverse with
  | c :: d :: rest => if isSideChar c && d = '.' then rest.reverse else l
  | _ => l

/-- Regex `re.sub(r"(L|R)$", "", s, flags=re.IGNORECASE)`: delete a
trailing side letter. -/
def stripBareSideTok (l : List Char) : List Char :=
  match l.reverse with
  | c :: rest => if isSideChar c then rest.reverse else l
  | _ => l

/-!
## The resolver that claim C1 describes

C1 states that resolution (step 1) tries an exact case-insensitive match
per candidate in candidate order, and (steps 2-3) falls back to a prefix
search on the normalized candidate stripped of a trailing `.L`/`.R`,
preferring the prefix result whose own normalized form equals the input's
normalized form, else the first prefix result by catalog name ascending.
`resolveClaimC1` follows those words; it exists to be compared with
`mmGetMeshMap`, the function the source actually implements.
-/

/-- Predicate `startsW s p`: `s` starts with `p`. -/
def startsW : List Char → List Char → Bool
  | _, [] => true
  | [], _ :: _ => false
  | a :: as, b :: bs => a = b && startsW as bs

/-- Python `pat in s` substring containment. -/
def containsSeq : List Char → List Char → Bool
  | [], pat => pat = []
  | a :: rest, pat => startsW (a :: rest) pat || containsSeq rest pat

/-- Strict lexicographic order on names (for "catalog name ascending"). -/
def lexLt : List Char → List Char → Bool
  | _, [] => false
  | [], _ :: _ => true
  | a :: as, b :: bs => a < b || (a = b && lexLt as bs)

def insByName (r : Nat × List Char) : List (Nat × List Char) → List (Nat × List Char)
  | [] => [r]
  | x :: xs => if lexLt r.2 x.2 then r :: x :: xs else x :: insByName r xs

/-- Sort catalog rows by name ascending. -/
def sortByName (rows : List (Nat × List Char)) : List (Nat × List Char) :=
  rows.foldr insByName []

/-- The Candidate Matcher exactly as claim C1 words it (spec-side
definition, not from the source). -/
def resolveClaimC1 (catalog : List (Nat × List Char)) (input : List Char) :
    Option (Nat × List Char) :=
  let cands := mmVariants input
  let norm := mmNormalize input
  match cands.findSome? (fun c => catalog.find? (fun row => ciEq row.2 c)) with
  | some r => some r
  | none =>
    let base := stripDotSideTok norm
    let results := sortByName
      (catalog.filter (fun row => startsW (row.2.map pyLower) (base.map pyLower)))
    match results.find? (fun row => mmNormalize row.2 = norm) with
    | some r => some r
    | none => results.head?

/-!
## The amended resolver (what the source does)

The source performs no prefix search: it fetches every catalog row whose
name case-insensitively equals one of the candidates, then prefers, by
case-sensitive comparison, the raw input, then the normalized form, then
each candidate in order, falling back to the first fetched row; if
nothing matches it returns the not-found value with the attempted
candidates.
-/

def resolveAmendedC1 (catalog : List (Nat × List Char)) (input : List Char) : MeshResult :=
  let norm := mmNormalize input
  let cands := mmVariants input
  if cands.isEmpty then MeshResult.notFound emptyMeshMsg input norm []
  else
    let hits := catalog.filter (fun row => decide (∃ c ∈ cands, ciEq row.2 c = true))
    if hh : hits = [] then MeshResult.notFound meshNotFoundMsg input norm cands
    else
      let pref := (input :: norm :: cands).findSome?
        (fun t => hits.find? (fun m => decide (m.2 = t)))
      MeshResult.found (pref.getD (hits.head hh)) hits input norm cands

/-!
## `s2_agent/s1_handoff.py`

`_clean_zh_name`, `_display_name`, `_build_seed_text` and the default
question of `bootstrap_from_s1`.  `_normalize_text` is a UTF-8
re-encode/decode with replacement; on the well-formed Unicode strings
modelled here it is the identity, so it is not represented.
Detections are the dicts built in `bootstrap_from_s1`; only `bone_zh`
and `bone_en` are consulted by the seed-text aggregation, so the other
fields (label, confidence, bbox — floating point) are omitted.
-/

structure Detection where
  boneZh : Option (List Char)
  boneEn : Option (List Char)
deriving DecidableEq

/-- The anchored tail of regex `\s*\(\d+\)\s*$`, parsed from the reversed
string: trailing whitespace, `)`, one or more digits, `(`, and the
whitespace run immediately before `(` (which the leftmost match of the
greedy `\s*` consumes).  Returns the reversed remainder on a match. -/
def parenTail (r : List Char) : Option (List Char) :=
  match r.dropWhile isPyWs with
  | c :: r2 =>
    if c = ')' then
      if r2.takeWhile isAsciiDigit = [] then none
      else
        match r2.dropWhile isAsciiDigit with
        | d :: r3 => if d = '(' then some (r3.dropWhile isPyWs) else none
        | [] => none
    else none
  | [] => none

/-- Substitution `_tail_num_re.sub("", name)` for `_tail_num_re = \s*\(\d+\)\s*$`. -/
def stripTailNum (l : List Char) : List Char :=
  match parenTail l.reverse with
  | some rest => rest.reverse
  | none => l

/-- Function `s1_handoff._clean_zh_name`. -/
def cleanZhName (name : Option (List Char)) : Option (List Char) :=
  match name with
  | none => none
  | some n =>
    if n = [] then none
    else
      let r := stripL (stripTailNum n)
      if r = [] then none else some r

/-- Function `s1_handoff._display_name`. -/
def displayName (boneZh boneEn : Option (List Char)) : Option (List Char) :=
  let zh := cleanZhName boneZh
  let en := stripL (boneEn.getD [])
  let en := if en = [] then none else some en
  match zh, en with
  | some z, some e => some (z ++ "（".data ++ e ++ "）".data)
  | some z, none => some z
  | none, some e => some e
  | none, none => none

/-- Step `Counter[name] += 1` over an insertion-ordered entry list. -/
def bumpCount : List (List Char × Nat) → List Char → List (List Char × Nat)
  | [], n => [(n, 1)]
  | (k, c) :: rest, n =>
    if k = n then (k, c + 1) :: rest else (k, c) :: bumpCount rest n

/-- One iteration of the counting loop of `_build_seed_text`. -/
def aggStep (acc : List (List Char × Nat) × Nat) (d : Detection) :
    List (List Char × Nat) × Nat :=
  match displayName d.boneZh d.boneEn with
  | some n => (bumpCount acc.1 n, acc.2)
  | none => (acc.1, acc.2 + 1)

/-- The counting loop of `_build_seed_text`: per-display-name counts in
first-seen order, plus the unresolved count (`unknown_cnt`). -/
def aggregateDets (dets : List Detection) : List (List Char × Nat) × Nat :=
  dets.foldl aggStep ([], 0)

/-- Stable insertion step for `Counter.most_common()`: an entry goes
before the first entry with a count not larger than its own, so equal
counts keep their original relative order (CPython's `sorted(...,
reverse=True)` is stable). -/
def insByCount (e : List Char × Nat) : List (List Char × Nat) → List (List Char × Nat)
  | [] => [e]
  | f :: fs => if e.2 ≥ f.2 then e :: f :: fs else f :: insByCount e fs

/-- Method `Counter.most_common()`: descending by count, stable. -/
def mostCommon (l : List (List Char × Nat)) : List (List Char × Nat) :=
  l.foldr insByCount []

def sumCounts (l : List (List Char × Nat)) : Nat := (l.map (fun e => e.2)).sum

def noResultBullet : List Char := "- （目前沒有可對應到骨名的偵測結果）".data

def constraintsText : List Char :=
  "回答限制（請遵守）：\n1) 請只圍繞本次偵測到的骨骼部位與這張影像的判讀重點。\n".data

/-- Python `"\n".join(lines)`. -/
def joinNL : List (List Char) → List Char
  | [] => []
  | [x] => x
  | x :: y :: xs => x ++ '\n' :: joinNL (y :: xs)

/-- Function `s1_handoff._build_seed_text` (the f-string is split at its
interpolation points). -/
def buildSeedText (caseId : Int) (dets : List Detection) (userQuestion : List Char) :
    List Char :=
  let agg := aggregateDets dets
  let entryLines := (mostCommon agg.1).map
    (fun e => "- ".data ++ e.1 ++ (if e.2 > 1 then " ×".data ++ (Nat.repr e.2).data else []))
  let bodyLines :=
    ["偵測到的主要骨骼部位：".data]
      ++ (if agg.1 = [] then [noResultBullet] else entryLines)
      ++ (if agg.2 > 0 then
            ["- 未能對應明確骨名的區域：".data ++ (Nat.repr agg.2).data
              ++ " 個（可能是重疊/局部遮蔽/分類不確定）".data]
          else [])
  "我從辨識頁面帶入一張骨科 X 光影像的偵測摘要。\n".data
    ++ "ImageCaseId: ".data ++ (Int.repr caseId).data ++ "\n\n".data
    ++ joinNL bodyLines
    ++ "\n\n我的問題：\n".data ++ stripL userQuestion ++ "\n\n".data
    ++ constraintsText

def defaultQuestionText : List Char :=
  ("請用衛教方式解釋偵測到的骨骼部位（位置、功能），"
    ++ "並從 X 光判讀角度說明常見需要留意的重點（例如骨折、脫臼、關節間隙變化等），"
    ++ "最後給我 3 個延伸提問。").data

/-- Step 4 of `bootstrap_from_s1`: `question = (body.question or "").strip()`,
substituting the fixed default when empty. -/
def effectiveQuestion (q : Option (List Char)) : List Char :=
  let t := stripL (q.getD [])
  if t = [] then defaultQuestionText else t

/-!
## `s3_viewer/bones.py`

`_side_from_place`, `_key_base`, and the grouping loop of
`get_bone_list` (the SQL join is the injected row source; rows arrive in
table order and the `groups` dict preserves first-insertion order).
-/

/-- Function `bones._side_from_place`. -/
def sideFromPlace (place meshName : Option (List Char)) : Option Char :=
  let p := (stripL (place.getD [])).map pyLower
  if containsSeq p "left".data then some 'L'
  else if containsSeq p "right".data then some 'R'
  else
    let m := stripL (meshName.getD [])
    match m.reverse with
    | c :: rest =>
      if isSideChar c && rest.head? = some '.' then some (pyUpper c)
      else if isSideChar c then some (pyUpper c)
      else none
    | [] => none

/-- Function `bones._key_base`. -/
def keyBase (smallBoneEn meshName : List Char) : List Char :=
  let base := if stripL smallBoneEn = [] then stripL meshName else stripL smallBoneEn
  let base := stripL (collapseWs base)
  let base := stripDotSideTok base
  let base := stripBareSideTok base
  stripL base

/-- One joined row of the `get_bone_list` query
(`Bone_Info × Bone_small × BoneMeshMap`). -/
structure BoneRow where
  boneId : Int
  boneZh : List Char
  boneEn : List Char
  boneRegion : List Char
  boneDesc : List Char
  smallBoneId : Int
  smallBoneZh : List Char
  smallBoneEn : List Char
  serialNumber : List Char
  place : List Char
  note : List Char
  meshName : List Char
deriving DecidableEq

/-- The per-row `item` dict of `get_bone_list`. -/
structure BoneItem where
  smallBoneId : Int
  smallBoneZh : List Char
  smallBoneEn : List Char
  serialNumber : List Char
  place : List Char
  note : List Char
  meshName : List Char
  side : Option Char
deriving DecidableEq

/-- One aggregated card of `get_bone_list` (`groups[gk]`). -/
structure BoneGroup where
  key : List Char
  boneId : Int
  boneZh : List Char
  boneEn : List Char
  boneRegion : List Char
  boneDesc : List Char
  count : Nat
  left : Option BoneItem
  right : Option BoneItem
  center : Option BoneItem
  items : List BoneItem
deriving DecidableEq

def mkItem (r : BoneRow) : BoneItem :=
  { smallBoneId := r.smallBoneId, smallBoneZh := r.smallBoneZh
    smallBoneEn := r.smallBoneEn, serialNumber := r.serialNumber
    place := r.place, note := r.note, meshName := r.meshName
    side := sideFromPlace (some r.place) (some r.meshName) }

def newGroup (r : BoneRow) : BoneGroup :=
  { key := keyBase r.smallBoneEn r.meshName, boneId := r.boneId
    boneZh := r.boneZh, boneEn := r.boneEn, boneRegion := r.boneRegion
    boneDesc := r.boneDesc, count := 0, left := none, right := none
    center := none, items := [] }

/-- Appending one item to a group: `items.append`, `count += 1`, and the
side slot assignment. -/
def updGroup (g : BoneGroup) (item : BoneItem) : BoneGroup :=
  { g with
    count := g.count + 1
    items := g.items ++ [item]
    left := if item.side = some 'L' then some item else g.left
    right := if item.side = some 'R' then some item else g.right
    center := if item.side = some 'L' ∨ item.side = some 'R' then g.center else some item }

/-- Processing one row against the insertion-ordered group list: the dict
lookup on `gk = (bone_id, key)` updates the existing group or appends a
fresh one. -/
def addRow (r : BoneRow) : List BoneGroup → List BoneGroup
  | [] => [updGroup (newGroup r) (mkItem r)]
  | g :: gs =>
    if g.boneId = r.boneId ∧ g.key = keyBase r.smallBoneEn r.meshName then
      updGroup g (mkItem r) :: gs
    else g :: addRow r gs

/-- The grouping loop of `get_bone_list` (`data: list(groups.values())`). -/
def boneListData (rows : List BoneRow) : List BoneGroup :=
  rows.foldl (fun gs r => addRow r gs) []

/-- First-seen key accumulation (Python dict insertion order). -/
def seenFold (ks : List (List Char)) (n : List Char) : List (List Char) :=
  if n ∈ ks then ks else ks ++ [n]

/-- The display names of the resolvable detections, deduplicated keeping
first occurrences — the key order `Counter` iterates in. -/
def firstSeenNames (dets : List Detection) : List (List Char) :=
  (dets.filterMap (fun d => displayName d.boneZh d.boneEn)).foldl seenFold []

/-- Left row of the witness pair for C2. -/
def c2RowL : BoneRow :=
  { boneId := 5, boneZh := "顳骨".data, boneEn := "Temporal".data
    boneRegion := "skull".data, boneDesc := [], smallBoneId := 51
    smallBoneZh := [], smallBoneEn := "Temporal bone.L".data
    serialNumber := [], place := [], note := [], meshName := "Temporal.L".data }

/-- Right row of the witness pair for C2. -/
def c2RowR : BoneRow :=
  { boneId := 5, boneZh := "顳骨".data, boneEn := "Temporal".data
    boneRegion := "skull".data, boneDesc := [], smallBoneId := 52
    smallBoneZh := [], smallBoneEn := "Temporal bone.R".data
    serialNumber := [], place := [], note := [], meshName := "Temporal.R".data }

/-!
## Helper lemmas on the string primitives
-/

theorem dropWhile_append_neg {α} (p : α → Bool) (l : List α) (c : α) (r : List α)
    (hc : p c = false) : (l ++ c :: r).dropWhile p = l.dropWhile p ++ c :: r := by
  induction l with
  | nil => simp [List.dropWhile_cons, hc]
  | cons a t ih =>
    by_cases h : p a = true
    · simp [List.dropWhile_cons, h, ih]
    · simp [List.dropWhile_cons, h]

theorem dropWhile_append_all {α} (p : α → Bool) (l r : List α)
    (h : ∀ x ∈ l, p x = true) : (l ++ r).dropWhile p = r.dropWhile p := by
  induction l with
  | nil => simp
  | cons a t ih =>
    have ha : p a = true := h a (List.mem_cons_self a t)
    simp only [List.cons_append, List.dropWhile_cons, ha, if_true]
    exact ih (fun x hx => h x (List.mem_cons_of_mem a hx))

theorem takeWhile_append_all_neg {α} (p : α → Bool) (l : List α) (c : α) (r : List α)
    (h : ∀ x ∈ l, p x = true) (hc : p c = false) : (l ++ c :: r).takeWhile p = l := by
  induction l with
  | nil => simp [List.takeWhile_cons, hc]
  | cons a t ih =>
    have ha : p a = true := h a (List.mem_cons_self a t)
    simp only [List.cons_append, List.takeWhile_cons, ha, if_true]
    exact congrArg (a :: ·) (ih (fun x hx => h x (List.mem_cons_of_mem a hx)))

theorem dropWhile_dropWhile {α} (p : α → Bool) (l : List α) :
    (l.dropWhile p).dropWhile p = l.dropWhile p := by
  induction l with
  | nil => rfl
  | cons a t ih =>
    by_cases h : p a = true
    · simp [List.dropWhile_cons, h, ih]
    · simp [List.dropWhile_cons, h]

theorem rstripL_rstripL (l : List Char) : rstripL (rstripL l) = rstripL l := by
  simp [rstripL, dropWhile_dropWhile]

theorem stripL_rstripL (l : List Char) : stripL (rstripL l) = stripL l := by
  simp [stripL, rstripL_rstripL]

/-- Stripping a string that ends with a non-whitespace suffix keeps the
suffix and only removes leading whitespace. -/
theorem stripL_append_nonWs (b s : List Char) (hs : s ≠ [])
    (hall : ∀ x ∈ s, isPyWs x = false) :
    stripL (b ++ s) = b.dropWhile isPyWs ++ s := by
  have hrev : (b ++ s).reverse.dropWhile isPyWs = (b ++ s).reverse := by
    rw [List.reverse_append]
    cases hsr : s.reverse with
    | nil => exact absurd (by simpa using congrArg List.reverse hsr) hs
    | cons c t =>
      have hc : c ∈ s := by
        have : c ∈ s.reverse := by rw [hsr]; exact List.mem_cons_self c t
        simpa using this
      simp [List.dropWhile_cons, hall c hc]
  unfold stripL rstripL lstripL
  rw [hrev, List.reverse_reverse]
  cases s with
  | nil => exact absurd rfl hs
  | cons c r => exact dropWhile_append_neg isPyWs b c r (hall c (List.mem_cons_self c r))

theorem collapseRunAux_all_neg {p : Char → Bool} {out : Char} {s : List Char}
    (h : ∀ x ∈ s, p x = false) : ∀ flag, collapseRunAux p out flag s = s := by
  induction s with
  | nil => intro flag; rfl
  | cons a t ih =>
    intro flag
    have ha : p a = false := h a (List.mem_cons_self a t)
    simp only [collapseRunAux, ha, Bool.false_eq_true, if_false]
    exact congrArg (a :: ·) (ih (fun x hx => h x (List.mem_cons_of_mem a hx)) false)

/-- Collapsing runs in `b ++ s` leaves a run-free suffix `s` untouched. -/
theorem collapseRunAux_append {p : Char → Bool} {out : Char} {s : List Char}
    (h : ∀ x ∈ s, p x = false) :
    ∀ (b : List Char) (flag : Bool),
      collapseRunAux p out flag (b ++ s) = collapseRunAux p out flag b ++ s := by
  intro b
  induction b with
  | nil => intro flag; simpa [collapseRunAux] using collapseRunAux_all_neg h flag
  | cons a t ih =>
    intro flag
    by_cases ha : p a = true
    · simp only [List.cons_append, collapseRunAux, ha, if_true]
      by_cases hf : flag = true
      · simp [hf, ih]
      · simp only [Bool.not_eq_true] at hf
        simp [hf, ih]
    · simp only [Bool.not_eq_true] at ha
      simp only [List.cons_append, collapseRunAux, ha, Bool.false_eq_true, if_false]
      simp [ih]

theorem collapseWs_append {s : List Char} (h : ∀ x ∈ s, isPyWs x = false)
    (b : List Char) : collapseWs (b ++ s) = collapseWs b ++ s :=
  collapseRunAux_append h b false

theorem sideChar_not_ws {c : Char} (h : isSideChar c = true) : isPyWs c = false := by
  simp only [isSideChar, Bool.or_eq_true, decide_eq_true_eq] at h
  rcases h with ((h | h) | h) | h <;> subst h <;> decide

theorem stripDotSideTok_side (u : List Char) {c : Char} (hc : isSideChar c = true) :
    stripDotSideTok (u ++ ['.', c]) = u := by
  have : (u ++ ['.', c]).reverse = c :: '.' :: u.reverse := by simp
  simp [stripDotSideTok, this, hc]

theorem stripBareSideTok_side (u : List Char) {c : Char} (hc : isSideChar c = true) :
    stripBareSideTok (u ++ [c]) = u := by
  have : (u ++ [c]).reverse = c :: u.reverse := by simp
  simp [stripBareSideTok, this, hc]

/-!
## Side symmetry of `_key_base` (claim C2)
-/

/-- Function `_key_base` on a name ending in a run-free, whitespace-free suffix,
reduced to its last three steps over a suffix-independent stem. -/
theorem keyBase_reduce (b m s : List Char) (hs : s ≠ [])
    (hall : ∀ x ∈ s, isPyWs x = false) :
    keyBase (b ++ s) m =
      stripL (stripBareSideTok (stripDotSideTok
        ((collapseWs (b.dropWhile isPyWs)).dropWhile isPyWs ++ s))) := by
  have h1 : stripL (b ++ s) = b.dropWhile isPyWs ++ s := stripL_append_nonWs b s hs hall
  have hne : b.dropWhile isPyWs ++ s ≠ [] := by
    intro hh
    exact hs (List.append_eq_nil.mp hh).2
  unfold keyBase
  simp only [h1, if_neg hne]
  rw [collapseWs_append hall,
    stripL_append_nonWs (collapseWs (b.dropWhile isPyWs)) s hs hall]

theorem sideChar_ws_false {c : Char} (hc : isSideChar c = true) :
    ∀ x ∈ ['.', c], isPyWs x = false := by
  intro x hx
  simp only [List.mem_cons, List.not_mem_nil, or_false] at hx
  rcases hx with hx | hx <;> subst hx
  · decide
  · exact sideChar_not_ws hc

theorem keyBase_dot_side (b m m' : List Char) {c c' : Char}
    (hc : isSideChar c = true) (hc' : isSideChar c' = true) :
    keyBase (b ++ ['.', c]) m = keyBase (b ++ ['.', c']) m' := by
  rw [keyBase_reduce b m ['.', c] (by simp) (sideChar_ws_false hc),
    keyBase_reduce b m' ['.', c'] (by simp) (sideChar_ws_false hc'),
    stripDotSideTok_side _ hc, stripDotSideTok_side _ hc']

theorem keyBase_bare_side (b m m' : List Char) {c c' : Char}
    (hc : isSideChar c = true) (hc' : isSideChar c' = true) :
    keyBase (b ++ [c]) m = keyBase (b ++ [c']) m' := by
  have hone : ∀ x : Char, isSideChar x = true → ∀ y ∈ [x], isPyWs y = false := by
    intro x hx y hy
    simp only [List.mem_cons, List.not_mem_nil, or_false] at hy
    subst hy
    exact sideChar_not_ws hx
  rw [keyBase_reduce b m [c] (by simp) (hone c hc),
    keyBase_reduce b m' [c'] (by simp) (hone c' hc')]
  set u := (collapseWs (b.dropWhile isPyWs)).dropWhile isPyWs with hu
  cases hur : u.reverse with
  | nil =>
    have hu0 : u = [] := by simpa using congrArg List.reverse hur
    rw [hu0]
    simp only [List.nil_append]
    have hdot : ∀ x : Char, stripDotSideTok [x] = [x] := by
      intro x
      simp [stripDotSideTok]
    have hbare : ∀ x : Char, isSideChar x = true → stripBareSideTok [x] = [] := by
      intro x hx
      simp [stripBareSideTok, hx]
    rw [hdot, hdot, hbare c hc, hbare c' hc']
  | cons d us =>
    have hud : u = us.reverse ++ [d] := by
      have := congrArg List.reverse hur
      simpa using this
    by_cases hd : d = '.'
    · subst hd
      rw [hud]
      have hrw : ∀ x : Char, us.reverse ++ ['.'] ++ [x] = us.reverse ++ ['.', x] := by
        intro x
        simp
      rw [hrw, hrw, stripDotSideTok_side _ hc, stripDotSideTok_side _ hc']
    · have hnodot : ∀ x : Char, isSideChar x = true →
          stripDotSideTok (u ++ [x]) = u ++ [x] := by
        intro x hx
        have hrev : (u ++ [x]).reverse = x :: d :: us := by
          rw [hud]
          simp
        simp [stripDotSideTok, hrev, hd]
      rw [hnodot c hc, hnodot c' hc', stripBareSideTok_side _ hc, stripBareSideTok_side _ hc']

/-- C2: for every pair of catalog rows that differ only by side — same
`bone_id`, base English name plus a trailing `.L`/`.R` (or bare `L`/`R`)
side token — the bone-list aggregation computes the same grouping key
(the side-stripped base name, not the side-specific small-bone id), so
the two rows land in one aggregated entry of count 2. -/
theorem claim2_merge (r1 r2 : BoneRow) (b : List Char)
    (hid : r1.boneId = r2.boneId)
    (hside : (r1.smallBoneEn = b ++ ['.', 'L'] ∧ r2.smallBoneEn = b ++ ['.', 'R']) ∨
             (r1.smallBoneEn = b ++ ['L'] ∧ r2.smallBoneEn = b ++ ['R'])) :
    keyBase r1.smallBoneEn r1.meshName = keyBase r2.smallBoneEn r2.meshName ∧
    ∃ g, boneListData [r1, r2] = [g] ∧ g.count = 2 := by
  have hkey : keyBase r1.smallBoneEn r1.meshName = keyBase r2.smallBoneEn r2.meshName := by
    rcases hside with ⟨h1, h2⟩ | ⟨h1, h2⟩
    · rw [h1, h2]
      exact keyBase_dot_side b _ _ (by decide) (by decide)
    · rw [h1, h2]
      exact keyBase_bare_side b _ _ (by decide) (by decide)
  refine ⟨hkey, updGroup (updGroup (newGroup r1) (mkItem r1)) (mkItem r2), ?_, rfl⟩
  have hcond : (updGroup (newGroup r1) (mkItem r1)).boneId = r2.boneId ∧
      (updGroup (newGroup r1) (mkItem r1)).key = keyBase r2.smallBoneEn r2.meshName := by
    exact ⟨hid, hkey⟩
  show addRow r2 (addRow r1 []) = _
  rw [show addRow r1 [] = [updGroup (newGroup r1) (mkItem r1)] from rfl]
  unfold addRow
  rw [if_pos hcond]

/-- Witness for C2: a concrete left/right pair merges into one card. -/
theorem claim2_merge_witness :
    keyBase c2RowL.smallBoneEn c2RowL.meshName = keyBase c2RowR.smallBoneEn c2RowR.meshName ∧
    ∃ g, boneListData [c2RowL, c2RowR] = [g] ∧ g.count = 2 :=
  claim2_merge c2RowL c2RowR "Temporal bone".data rfl (Or.inl ⟨by decide, by decide⟩)

/-- C10 (implicit): when the `place` hint contains neither "left" nor
"right", side inference looks only at the final character of the stripped
mesh name: any name ending in `l`/`L`/`r`/`R` is reported as sided `L`/`R`
(never `None`), even for anatomically unsided names such as "Femur". -/
theorem claim10_side (place mesh : Option (List Char)) (c : Char) (rest : List Char)
    (hleft : containsSeq ((stripL (place.getD [])).map pyLower) "left".data = false)
    (hright : containsSeq ((stripL (place.getD [])).map pyLower) "right".data = false)
    (hm : (stripL (mesh.getD [])).reverse = c :: rest)
    (hc : isSideChar c = true) :
    sideFromPlace place mesh = some (pyUpper c) := by
  unfold sideFromPlace
  simp only [hleft, hright, hm, hc, Bool.false_eq_true, if_false, Bool.true_and]
  by_cases hd : rest.head? = some '.'
  · simp [hd]
  · simp [hd]

/-- Witness for C10: "Femur" with an empty place hint is classified as a
right-sided bone. -/
theorem claim10_side_witness : sideFromPlace (some []) (some "Femur".data) = some 'R' := by
  have h := claim10_side (some []) (some "Femur".data) 'r' "umeF".data
    (by decide) (by decide) (by decide) (by decide)
  simpa using h

/-!
## Display-name cleaning (claim C7)
-/

/-- The anchored substitution `\s*\(\d+\)\s*$` on a string of the shape
`z ++ ws ++ "(" ++ digits ++ ")" ++ ws` removes everything after `z`
(plus the trailing whitespace of `z` swallowed by the greedy, leftmost
`\s*`). -/
theorem stripTailNum_paren (z w1 d w2 : List Char)
    (hw1 : ∀ x ∈ w1, isPyWs x = true) (hw2 : ∀ x ∈ w2, isPyWs x = true)
    (hd : d ≠ []) (hdall : ∀ x ∈ d, isAsciiDigit x = true) :
    stripTailNum (z ++ w1 ++ '(' :: (d ++ ')' :: w2)) = rstripL z := by
  unfold stripTailNum
  have hrev : (z ++ w1 ++ '(' :: (d ++ ')' :: w2)).reverse
      = w2.reverse ++ ')' :: (d.reverse ++ '(' :: (w1.reverse ++ z.reverse)) := by
    simp
  rw [hrev]
  unfold parenTail
  rw [dropWhile_append_all _ _ _ (fun x hx => hw2 x (List.mem_reverse.mp hx)),
    List.dropWhile_cons_of_neg (by decide)]
  simp only [if_true]
  rw [takeWhile_append_all_neg _ _ _ _ (fun x hx => hdall x (List.mem_reverse.mp hx)) (by decide)]
  have hdr : d.reverse ≠ [] := by simpa using hd
  rw [if_neg hdr,
    dropWhile_append_all _ _ _ (fun x hx => hdall x (List.mem_reverse.mp hx)),
    List.dropWhile_cons_of_neg (by decide)]
  simp only [if_true]
  rw [dropWhile_append_all _ _ _ (fun x hx => hw1 x (List.mem_reverse.mp hx))]
  rfl

/-- C7: the Chinese name is cleaned by stripping a trailing parenthesized
numeric suffix (optional whitespace, `(`, digits, `)`, optional
whitespace, anchored at the end); the display name is
`"{cleanZh}（{en}）"` when both names are non-empty; in particular
`zh = "肋骨 (24)"`, `en = "Ribs"` displays as `"肋骨（Ribs）"`. -/
theorem claim7_display :
    (∀ z w1 d w2 : List Char,
      (∀ x ∈ w1, isPyWs x = true) → (∀ x ∈ w2, isPyWs x = true) →
      d ≠ [] → (∀ x ∈ d, isAsciiDigit x = true) →
      cleanZhName (some (z ++ w1 ++ '(' :: (d ++ ')' :: w2)))
        = (if stripL z = [] then none else some (stripL z))) ∧
    displayName (some "肋骨 (24)".data) (some "Ribs".data) = some "肋骨（Ribs）".data := by
  constructor
  · intro z w1 d w2 hw1 hw2 hd hdall
    have hne : ¬ (z ++ w1 ++ '(' :: (d ++ ')' :: w2) = []) := by simp
    simp only [cleanZhName, if_neg hne,
      stripTailNum_paren z w1 d w2 hw1 hw2 hd hdall, stripL_rstripL]
  · decide

/-- Witness for C7 at the spec's example entry. -/
theorem claim7_display_witness :
    cleanZhName (some "肋骨 (24)".data) = some "肋骨".data ∧
    displayName (some "肋骨 (24)".data) (some "Ribs".data) = some "肋骨（Ribs）".data := by
  constructor
  · have h := claim7_display.1 "肋骨".data [' '] "24".data []
      (by decide) (by decide) (by decide) (by decide)
    have he : "肋骨".data ++ [' '] ++ '(' :: ("24".data ++ ')' :: []) = "肋骨 (24)".data := by
      decide
    rw [he] at h
    rw [h]
    decide
  · exact claim7_display.2

/-!
## Aggregation invariants (claims C3 and C4)
-/

theorem sumCounts_cons (e : List Char × Nat) (l : List (List Char × Nat)) :
    sumCounts (e :: l) = e.2 + sumCounts l := by
  simp [sumCounts]

theorem sumCounts_bump (l : List (List Char × Nat)) (n : List Char) :
    sumCounts (bumpCount l n) = sumCounts l + 1 := by
  induction l with
  | nil => simp [bumpCount, sumCounts]
  | cons e rest ih =>
    obtain ⟨k, c⟩ := e
    by_cases h : k = n
    · simp only [bumpCount, if_pos h, sumCounts_cons]
      omega
    · simp only [bumpCount, if_neg h, sumCounts_cons, ih]
      omega

theorem aggregate_foldl_inv (dets : List Detection) :
    ∀ acc : List (List Char × Nat) × Nat,
      sumCounts (dets.foldl aggStep acc).1 + (dets.foldl aggStep acc).2
        = sumCounts acc.1 + acc.2 + dets.length := by
  induction dets with
  | nil => intro acc; simp
  | cons d ds ih =>
    intro acc
    rw [List.foldl_cons, ih (aggStep acc d)]
    unfold aggStep
    cases hdn : displayName d.boneZh d.boneEn with
    | none => simp only [List.length_cons]; omega
    | some n => simp only [sumCounts_bump, List.length_cons]; omega

/-- C3: aggregation is total and conserves detections: the display-name
counts plus the unresolved count always sum to the input length, and a
detection whose names are missing or blank (so `_display_name` yields
nothing) is counted as unresolved rather than raising. -/
theorem claim3_count_invariant :
    (∀ dets : List Detection,
      sumCounts (aggregateDets dets).1 + (aggregateDets dets).2 = dets.length) ∧
    aggregateDets [⟨none, none⟩, ⟨some [], some [' ']⟩] = ([], 2) := by
  constructor
  · intro dets
    have h := aggregate_foldl_inv dets ([], 0)
    simpa [aggregateDets, sumCounts] using h
  · decide

theorem chain_insByCount (e : List Char × Nat) (l : List (List Char × Nat))
    (h : List.Chain' (fun a b => b.2 ≤ a.2) l) :
    List.Chain' (fun a b => b.2 ≤ a.2) (insByCount e l) := by
  induction l with
  | nil => simp [insByCount]
  | cons f fs ih =>
    rw [insByCount]
    by_cases hef : e.2 ≥ f.2
    · rw [if_pos hef]
      exact List.chain'_cons.mpr ⟨hef, h⟩
    · rw [if_neg hef]
      have htail : List.Chain' (fun a b => b.2 ≤ a.2) fs := (List.chain'_cons'.mp h).2
      refine List.chain'_cons'.mpr ⟨?_, ih htail⟩
      intro y hy
      cases fs with
      | nil =>
        simp [insByCount] at hy
        subst hy
        omega
      | cons g gs =>
        rw [insByCount] at hy
        by_cases heg : e.2 ≥ g.2
        · rw [if_pos heg] at hy
          simp at hy
          subst hy
          omega
        · rw [if_neg heg] at hy
          simp at hy
          subst hy
          exact (List.chain'_cons'.mp h).1 g (by simp)

/-- C4 chain half: `most_common` output is non-increasing in count. -/
theorem chain_mostCommon (l : List (List Char × Nat)) :
    List.Chain' (fun a b => b.2 ≤ a.2) (mostCommon l) := by
  induction l with
  | nil => simp [mostCommon]
  | cons x xs ih => exact chain_insByCount x (mostCommon xs) ih

theorem filter_insByCount_eq (e : List Char × Nat) (l : List (List Char × Nat))
    (k : Nat) (he : e.2 = k) :
    (insByCount e l).filter (fun x => x.2 == k) = e :: l.filter (fun x => x.2 == k) := by
  induction l with
  | nil => simp [insByCount, List.filter_cons, he]
  | cons f fs ih =>
    rw [insByCount]
    by_cases hef : e.2 ≥ f.2
    · rw [if_pos hef]
      simp [List.filter_cons, he]
    · rw [if_neg hef]
      have hf : (f.2 == k) = false := by
        simp only [beq_eq_false_iff_ne, ne_eq]
        omega
      simp [List.filter_cons, hf, ih]

theorem filter_insByCount_ne (e : List Char × Nat) (l : List (List Char × Nat))
    (k : Nat) (he : e.2 ≠ k) :
    (insByCount e l).filter (fun x => x.2 == k) = l.filter (fun x => x.2 == k) := by
  induction l with
  | nil => simp [insByCount, List.filter_cons, he]
  | cons f fs ih =>
    rw [insByCount]
    by_cases hef : e.2 ≥ f.2
    · rw [if_pos hef]
      simp [List.filter_cons, he]
    · rw [if_neg hef]
      simp [List.filter_cons, ih]

/-- C4 stability half: `most_common` permutes entries without reordering
entries of equal count. -/
theorem filter_mostCommon (l : List (List Char × Nat)) (k : Nat) :
    (mostCommon l).filter (fun x => x.2 == k) = l.filter (fun x => x.2 == k) := by
  induction l with
  | nil => rfl
  | cons x xs ih =>
    show (insByCount x (mostCommon xs)).filter (fun x => x.2 == k) = _
    by_cases hx : x.2 = k
    · rw [filter_insByCount_eq _ _ _ hx, ih]
      simp [List.filter_cons, hx]
    · rw [filter_insByCount_ne _ _ _ hx, ih]
      simp [List.filter_cons, hx]

theorem keys_bump (l : List (List Char × Nat)) (n : List Char) :
    (bumpCount l n).map Prod.fst = seenFold (l.map Prod.fst) n := by
  induction l with
  | nil => simp [bumpCount, seenFold]
  | cons e rest ih =>
    obtain ⟨k, c⟩ := e
    by_cases h : k = n
    · subst h
      simp [bumpCount, seenFold]
    · simp only [bumpCount, if_neg h, List.map_cons, ih, seenFold]
      by_cases hn : n ∈ rest.map Prod.fst
      · rw [if_pos hn, if_pos (by simp [hn])]
      · have hnk : ¬ n ∈ k :: rest.map Prod.fst := by
          simp only [List.mem_cons]
          rintro (hh | hh)
          · exact h hh.symm
          · exact hn hh
        rw [if_neg hn, if_neg hnk]
        simp

theorem keys_foldl (dets : List Detection) :
    ∀ acc : List (List Char × Nat) × Nat,
      (dets.foldl aggStep acc).1.map Prod.fst
        = (dets.filterMap (fun d => displayName d.boneZh d.boneEn)).foldl
            seenFold (acc.1.map Prod.fst) := by
  induction dets with
  | nil => intro acc; simp
  | cons d ds ih =>
    intro acc
    rw [List.foldl_cons, ih (aggStep acc d)]
    unfold aggStep
    cases hdn : displayName d.boneZh d.boneEn with
    | none => simp only [List.filterMap_cons, hdn]
    | some n =>
      simp only [List.filterMap_cons, hdn, List.foldl_cons, keys_bump]

/-- C4: the bullet order `_build_seed_text` emits (`Counter.most_common`)
is non-increasing in count; entries of equal count keep their relative
order, and the underlying entry list is keyed in first-seen order of the
input detections. -/
theorem claim4_ordering (dets : List Detection) :
    List.Chain' (fun a b => b.2 ≤ a.2) (mostCommon (aggregateDets dets).1) ∧
    (∀ k : Nat, (mostCommon (aggregateDets dets).1).filter (fun e => e.2 == k)
      = (aggregateDets dets).1.filter (fun e => e.2 == k)) ∧
    (aggregateDets dets).1.map Prod.fst = firstSeenNames dets := by
  refine ⟨chain_mostCommon _, fun k => filter_mostCommon _ k, ?_⟩
  have h := keys_foldl dets ([], 0)
  simpa [aggregateDets, firstSeenNames] using h

/-- C5: the router normalizer maps `"Fourth_DistalL"` to
`"Fourth Distal.L"`, and the candidate list is exactly the raw input
followed by the normalized form, the dot-free form, the doubled-side
form and the trailing-dot form, deduplicated keeping first occurrences;
in particular it contains the three forms named by the spec. -/
theorem claim5_normalize_example :
    rtNormalize "Fourth_DistalL".data = "Fourth Distal.L".data ∧
    rtCandidates "Fourth_DistalL".data
      = ["Fourth_DistalL".data, "Fourth Distal.L".data, "Fourth DistalL".data,
         "Fourth Distal.LL".data, "Fourth Distal.L.".data] ∧
    "Fourth_DistalL".data ∈ rtCandidates "Fourth_DistalL".data ∧
    "Fourth Distal.L".data ∈ rtCandidates "Fourth_DistalL".data ∧
    "Fourth DistalL".data ∈ rtCandidates "Fourth_DistalL".data ∧
    (rtCandidates "Fourth_DistalL".data).Nodup := by
  decide

/-- C6: the spec's round-trip property fails in the code.  On
`"TemporalL"` the ignorecase doubled-letter collapse `([LR])\1$` of
`mesh_map._normalize_mesh_name` misfires on the suffix `lL`, normalizing
to `"Temporal"`; the candidate list `["Temporal", "Tempora.l"]` misses
the catalog name `"Temporal.L"`, so resolution returns the not-found
value while `"Temporal.L"` resolves to the catalog row — contradicting
both the spec and the function's own docstring, which promises that
`TemporalL` and `Temporal.L` both map. -/
theorem claim6_code_bug :
    mmNormalize "TemporalL".data = "Temporal".data ∧
    mmVariants "TemporalL".data = ["Temporal".data, "Tempora.l".data] ∧
    isNotFound (mmGetMeshMap [(7, "Temporal.L".data)] "TemporalL".data) = true ∧
    foundId (mmGetMeshMap [(7, "Temporal.L".data)] "Temporal.L".data) = some 7 := by
  decide

/-- C8: an empty user question is replaced by the fixed default question
template, and on an empty detection list the seed text still contains
the image-case id and the explicit no-results bullet (the builder is a
total function, so it cannot raise). -/
theorem claim8_degenerate (c : Int) (q : Option (List Char)) :
    (stripL (q.getD []) = [] → effectiveQuestion q = defaultQuestionText) ∧
    (∃ l1 l2, buildSeedText c [] (effectiveQuestion q)
      = l1 ++ "ImageCaseId: ".data ++ (Int.repr c).data ++ l2) ∧
    (∃ l3 l4, buildSeedText c [] (effectiveQuestion q) = l3 ++ noResultBullet ++ l4) := by
  refine ⟨fun h => by simp [effectiveQuestion, h], ?_, ?_⟩
  · refine ⟨"我從辨識頁面帶入一張骨科 X 光影像的偵測摘要。\n".data,
      "\n\n".data ++ "偵測到的主要骨骼部位：".data ++ '\n' :: noResultBullet
        ++ "\n\n我的問題：\n".data ++ stripL (effectiveQuestion q) ++ "\n\n".data
        ++ constraintsText, ?_⟩
    simp [buildSeedText, aggregateDets, joinNL, List.append_assoc]
  · refine ⟨"我從辨識頁面帶入一張骨科 X 光影像的偵測摘要。\n".data
        ++ "ImageCaseId: ".data ++ (Int.repr c).data ++ "\n\n".data
        ++ "偵測到的主要骨骼部位：".data ++ ['\n'],
      "\n\n我的問題：\n".data ++ stripL (effectiveQuestion q) ++ "\n\n".data
        ++ constraintsText, ?_⟩
    simp [buildSeedText, aggregateDets, joinNL, List.append_assoc]

/-- Witness for C8 at image case 42 with no question. -/
theorem claim8_degenerate_witness :
    effectiveQuestion none = defaultQuestionText ∧
    (∃ l1 l2, buildSeedText 42 [] (effectiveQuestion none)
      = l1 ++ "ImageCaseId: ".data ++ (Int.repr 42).data ++ l2) ∧
    (∃ l3 l4, buildSeedText 42 [] (effectiveQuestion none) = l3 ++ noResultBullet ++ l4) :=
  ⟨(claim8_degenerate 42 none).1 (by decide), (claim8_degenerate 42 none).2.1,
    (claim8_degenerate 42 none).2.2⟩

/-- C9: not-found is a value, not an exception.  The mesh-map resolver
returns the diagnostic value carrying the input, its normalized form and
the attempted candidates, both for empty input (empty candidate list)
and for any input none of whose candidates matches the catalog; the
router endpoint returns the HTTP-404 payload with the same fields.  Both
embeddings are total functions. -/
theorem claim9_notfound (catalog : List (Nat × List Char)) (name : List Char) :
    mmGetMeshMap catalog [] = MeshResult.notFound emptyMeshMsg [] [] [] ∧
    ((∀ row ∈ catalog, ∀ cand ∈ mmVariants name, ciEq row.2 cand = false) →
      ∃ msg, mmGetMeshMap catalog name
        = MeshResult.notFound msg name (mmNormalize name) (mmVariants name)) ∧
    ((∀ row ∈ catalog, ∀ cand ∈ rtCandidates name, ciEq row.2 cand = false) →
      rtGetMeshMap catalog name
        = RtResult.httpNotFound rtNotFoundMsg name (rtNormalize name) (rtCandidates name)) := by
  refine ⟨rfl, ?_, ?_⟩
  · intro h
    by_cases hv : mmVariants name = []
    · exact ⟨emptyMeshMsg, by simp [mmGetMeshMap, hv]⟩
    · refine ⟨meshNotFoundMsg, ?_⟩
      have hfil : catalog.filter
          (fun row => (mmVariants name).any (fun c => ciEq row.2 c)) = [] := by
        rw [List.filter_eq_nil_iff]
        intro row hrow
        rw [List.any_eq_true]
        rintro ⟨cand, hc, hciEq⟩
        rw [h row hrow cand hc] at hciEq
        exact Bool.false_ne_true hciEq
      simp [mmGetMeshMap, hv, hfil]
  · intro h
    have hfind : catalog.find?
        (fun row => (rtCandidates name).any (fun c => ciEq row.2 c)) = none := by
      rw [List.find?_eq_none]
      intro row hrow
      rw [List.any_eq_true]
      rintro ⟨cand, hc, hciEq⟩
      rw [h row hrow cand hc] at hciEq
      exact Bool.false_ne_true hciEq
    simp [rtGetMeshMap, hfind]

/-- Witness for C9: an unmatched identifier against a one-row catalog. -/
theorem claim9_notfound_witness :
    (∃ msg, mmGetMeshMap [(7, "Temporal.L".data)] "Zzz".data
      = MeshResult.notFound msg "Zzz".data (mmNormalize "Zzz".data) (mmVariants "Zzz".data)) ∧
    rtGetMeshMap [(7, "Temporal.L".data)] "Zzz".data
      = RtResult.httpNotFound rtNotFoundMsg "Zzz".data (rtNormalize "Zzz".data)
          (rtCandidates "Zzz".data) :=
  ⟨(claim9_notfound [(7, "Temporal.L".data)] "Zzz".data).2.1 (by decide),
    (claim9_notfound [(7, "Temporal.L".data)] "Zzz".data).2.2 (by decide)⟩

/-- Counterexample to C1.  First input: the resolver of the claim would
prefix-search the base `"Cervical"` and resolve `"Cervical.L"` to the
catalog row `"Cervical vertebrae"`, but the code performs no prefix
search and returns the not-found value.  Second input: the claim's step
1 would return, for the first candidate `"beta.L"`, its case-insensitive
hit `(2, "beta.l")`, but the code fetches all case-insensitive hits and,
finding no case-sensitive preference, falls back to the first fetched
row `(1, "BetaL")`. -/
theorem claim1_counterexample :
    (foundId (mmGetMeshMap [(3, "Cervical vertebrae".data)] "Cervical.L".data) = none ∧
      (resolveClaimC1 [(3, "Cervical vertebrae".data)] "Cervical.L".data).map Prod.fst
        = some 3) ∧
    (foundId (mmGetMeshMap [(1, "BetaL".data), (2, "beta.l".data)] "beta.L".data) = some 1 ∧
      (resolveClaimC1 [(1, "BetaL".data), (2, "beta.l".data)] "beta.L".data).map Prod.fst
        = some 2) := by
  decide

theorem bool_eq_of_iff {a b : Bool} (h : a = true ↔ b = true) : a = b := by
  cases a <;> cases b <;> simp_all

/-- C1 as amended: resolution fetches every catalog row whose name
case-insensitively equals one of the candidates; among the fetched rows
it prefers, under case-sensitive comparison, the raw input, then the
normalized form, then each candidate in order, falling back to the first
fetched row in catalog order; with no candidates, or no fetched row, it
returns the not-found value with the attempted candidates — there is no
prefix-search fallback. -/
theorem claim1_amended (catalog : List (Nat × List Char)) (input : List Char) :
    mmGetMeshMap catalog input = resolveAmendedC1 catalog input := by
  have hfilq : ∀ row : Nat × List Char,
      ((mmVariants input).any (fun c => ciEq row.2 c))
        = decide (∃ c ∈ mmVariants input, ciEq row.2 c = true) := by
    intro row
    apply bool_eq_of_iff
    simp [List.any_eq_true]
  unfold mmGetMeshMap resolveAmendedC1
  simp only [hfilq]
  by_cases hv : mmVariants input = []
  · simp [hv]
  · simp only [if_neg hv, List.isEmpty_iff, hv, if_false]
    cases hF : catalog.filter
        (fun row => decide (∃ c ∈ mmVariants input, ciEq row.2 c = true)) with
    | nil => simp
    | cons m0 ms => simp

end BoneOrtho
